import Mathlib

/-!
Formal model of the progressive-perfect-square search program (`src/main.cpp`).

The program enumerates triples `(a, b, c)` with `1 ≤ a < 10^4`, `1 ≤ b < a`,
`c ≥ 1`, maps each to the candidate `n = c²·a³·b + c·b²`, keeps those `n`
below `10^12` that are perfect squares (using a quadratic-residue table
mod 64 for fast rejection, with an exact integer-square-root check as
fallback), deduplicates them in a set, and finally prints the integer square
root of every solution, a blank line, and the sum of all solutions.

All machine integers appearing in the program are nonnegative and (as proved
below) stay well inside the signed 64-bit range, so they are modelled as
`Nat`.
-/

/-- The modulus used for fast perfect square testing (`MODULUS` in the source). -/
def MODULUS : Nat := 64

/-- Model of `quadratic_residues_mod<n>()`: starting from the all-zero bit
table, set bit `(i*i) % n` for each `i < n`.  The bitset is modelled as a
function `Nat → Bool`. -/
def quadratic_residues_mod (n : Nat) : Nat → Bool :=
  (List.range n).foldl (fun residues i => Function.update residues ((i * i) % n) true)
    (fun _ => false)

/-- The global table `quadratic_residues` from the source. -/
def quadratic_residues : Nat → Bool := quadratic_residues_mod MODULUS

/-- Fuel-based Newton iteration for the integer square root; structurally
recursive so that the kernel can evaluate it.  Proven below (`sqrtIter_eq`)
to agree with `Nat.sqrt.iter`. -/
def sqrtIter (n : Nat) : Nat → Nat → Nat
  | 0, guess => guess
  | fuel+1, guess =>
    let next := (guess + n / guess) / 2
    if next < guess then sqrtIter n fuel next else guess

/-- `floor_sqrt n` is the floor of the real square root of `n`.  It models
`static_cast<i64>(sqrt(n))` from the source: for every argument the program
ever passes (`0 ≤ n < 10^12 < 2^52`), the double-precision square root is
correctly rounded with error far below the distance from √n to the nearest
wrong integer, so truncating it yields exactly the floor of the exact square
root.  `floor_sqrt_eq` below proves this function equal to `Nat.sqrt`. -/
def floor_sqrt (n : Nat) : Nat :=
  if n ≤ 1 then n else sqrtIter n n (n / 2)

/-- Model of `is_perfect_square(n)` from the source: reject fast when the
residue table bit at `n % MODULUS` is unset, otherwise compare
`root * root` with `n` for `root` the truncated square root. -/
def is_perfect_square (n : Nat) : Bool :=
  if quadratic_residues (n % MODULUS) = false then false
  else
    let root := floor_sqrt n
    root * root == n

/-- Model of `compute_candidate(a, b, c)` from the source:
`c*c*a*a*a*b + c*b*b`. -/
def compute_candidate (a b c : Nat) : Nat :=
  c * c * a * a * a * b + c * b * b

/-- The innermost loop of `main`, over `c`, starting at the given value of
`c`: compute `n = compute_candidate a b c`; stop when `n ≥ bound`; otherwise
record `n` when it is classified as a perfect square and continue with
`c + 1`.  The loop in the source has no fuel; the fuel here only makes the
recursion structural, and `cLoop_fuel_irrel` below shows any fuel
`≥ bound - c` (in particular the `fuel = bound, c = 1` instance used in
`searchList`) gives the loop's true, fuel-independent result. -/
def cLoop (bound a b : Nat) : Nat → Nat → List Nat
  | 0, _ => []
  | fuel+1, c =>
    if bound ≤ compute_candidate a b c then []
    else if is_perfect_square (compute_candidate a b c) then
      compute_candidate a b c :: cLoop bound a b fuel (c + 1)
    else cLoop bound a b fuel (c + 1)

/-- The triple-nested enumeration of `main`, parameterised by the bound on
`n` (`10^12` in the source) and the exclusive upper limit of the `a`-loop
(`10'000` in the source): `a` ranges over `[1, amax)`, `b` over `[1, a)`,
and `c` upward from `1` until the candidate reaches the bound.  The list
collects every candidate that passed the perfect-square test, in order,
with multiplicity. -/
def searchList (bound amax : Nat) : List Nat :=
  (List.range' 1 (amax - 1)).flatMap fun a =>
    (List.range' 1 (a - 1)).flatMap fun b =>
      cLoop bound a b bound 1

/-- The Solution Set `sols` of `main`: the distinct elements inserted by the
search (the `std::unordered_set` is modelled as the deduplicated list of
inserted values). -/
def sols (bound amax : Nat) : List Nat :=
  (searchList bound amax).dedup

/-- Sum of the Solution Set's elements (`std::accumulate` over the set). -/
def solsSum (bound amax : Nat) : Nat :=
  (sols bound amax).sum

/-- The Solution Set computed by `main` as written: bound `10^12`,
`a < 10'000`. -/
def mainSols : List Nat :=
  sols 1000000000000 10000

/-- The standard output of `main`, one list entry per line: the truncated
square root of each solution in set order, then an empty line, then the
decimal sum of the solutions. -/
def mainOutput : List String :=
  (mainSols.map fun sol => toString (floor_sqrt sol)) ++ [""] ++ [toString mainSols.sum]

/-- The exit status of `main` (`return 0`). -/
def mainExitStatus : Nat := 0

/-! ### The fuel-based square root agrees with `Nat.sqrt` -/

theorem sqrtIter_eq (n : Nat) :
    ∀ fuel guess, guess ≤ fuel → sqrtIter n fuel guess = Nat.sqrt.iter n guess := by
  intro fuel
  induction fuel with
  | zero =>
    intro guess h
    have hg : guess = 0 := Nat.le_zero.mp h
    subst hg
    rw [Nat.sqrt.iter]
    simp [sqrtIter]
  | succ fuel ih =>
    intro guess h
    rw [Nat.sqrt.iter]
    simp only [sqrtIter]
    by_cases hlt : (guess + n / guess) / 2 < guess
    · rw [if_pos hlt, dif_pos hlt, ih]
      omega
    · rw [if_neg hlt, dif_neg hlt]

theorem floor_sqrt_eq (n : Nat) : floor_sqrt n = Nat.sqrt n := by
  unfold floor_sqrt Nat.sqrt
  by_cases h : n ≤ 1
  · simp [h]
  · simp only [h, if_false]
    exact sqrtIter_eq n n (n / 2) (Nat.div_le_self n 2)

example : floor_sqrt 10404 = 102 := by decide
example : is_perfect_square 97344 = true := by decide
example : is_perfect_square 97345 = false := by decide

/-! ### Soundness of the quadratic-residue table -/

theorem qr_bit_set : ∀ j, j < 64 → quadratic_residues ((j * j) % 64) = true := by decide

/-- The bit of every square is set: the table, built from `i < MODULUS` only,
already covers `(k*k) % MODULUS` for every natural `k`. -/
theorem qr_square (k : Nat) : quadratic_residues ((k * k) % MODULUS) = true := by
  have h : (k * k) % MODULUS = ((k % 64) * (k % 64)) % 64 := by
    unfold MODULUS
    rw [Nat.mul_mod]
  rw [h]
  exact qr_bit_set (k % 64) (Nat.mod_lt k (by norm_num))

/-- If the table bit of `n % MODULUS` is unset, `n` is not a perfect square. -/
theorem qr_unset_not_square {n : Nat} (h : quadratic_residues (n % MODULUS) = false) :
    ∀ k, k * k ≠ n := by
  intro k hk
  subst hk
  rw [qr_square k] at h
  exact absurd h (by simp)

/-! ### The classifier decides the perfect-square predicate -/

theorem is_perfect_square_iff_sqrt (n : Nat) :
    is_perfect_square n = true ↔ Nat.sqrt n * Nat.sqrt n = n := by
  unfold is_perfect_square
  cases hq : quadratic_residues (n % MODULUS) with
  | false =>
    rw [if_pos rfl]
    constructor
    · intro h
      exact absurd h (by simp)
    · intro h
      exact absurd h (qr_unset_not_square hq (Nat.sqrt n))
  | true =>
    simp [floor_sqrt_eq]

theorem is_perfect_square_iff_exists (n : Nat) :
    is_perfect_square n = true ↔ ∃ k, k * k = n := by
  rw [is_perfect_square_iff_sqrt]
  constructor
  · intro h
    exact ⟨Nat.sqrt n, h⟩
  · rintro ⟨k, rfl⟩
    have hk : Nat.sqrt (k * k) = k := by
      rw [show k * k = k ^ 2 by ring, Nat.sqrt_eq']
    rw [hk]

/-- C2: for every `n` with `0 ≤ n < 10^12` (in particular every `n < 10^7`),
`is_perfect_square n` returns `true` if and only if `(⌊√n⌋)² = n`
(with `⌊√n⌋ = Nat.sqrt n`), i.e. iff `n` is a perfect square. -/
theorem claim_C2 (n : Nat) (h : n < 1000000000000) :
    (is_perfect_square n = true ↔ Nat.sqrt n ^ 2 = n) ∧
      (is_perfect_square n = true ↔ ∃ k, k * k = n) := by
  constructor
  · rw [is_perfect_square_iff_sqrt, Nat.pow_two]
  · exact is_perfect_square_iff_exists n

theorem claim_C2_witness :
    (10404 : Nat) < 1000000000000 ∧
      ((is_perfect_square 10404 = true ↔ Nat.sqrt 10404 ^ 2 = 10404) ∧
        (is_perfect_square 10404 = true ↔ ∃ k, k * k = 10404)) :=
  ⟨by norm_num, claim_C2 10404 (by norm_num)⟩

/-- C3: for every natural `k`, the bit at index `(k*k) % 64` is set in the
residue table; consequently the fast-rejection branch of
`is_perfect_square` never rejects a true square: `is_perfect_square (k*k)`
is `true` for every `k`. -/
theorem claim_C3 (k : Nat) :
    quadratic_residues ((k * k) % MODULUS) = true ∧
      is_perfect_square (k * k) = true :=
  ⟨qr_square k, (is_perfect_square_iff_exists (k * k)).mpr ⟨k, rfl⟩⟩

/-- C4: for `a > b ≥ 1` and `c ≥ 1`, setting `r = c·b²`, `d = c·a·b`,
`q = c·a²` gives `r < d ≤ q`, and
`compute_candidate a b c = c²·a³·b + c·b² = d·q + r` exactly; moreover
`(r, d, q)` are consecutive terms of a geometric progression with ratio
`a/b` (`d·b = r·a` and `q·b = d·a`). -/
theorem claim_C4 (a b c : Nat) (hb : 1 ≤ b) (hba : b < a) (hc : 1 ≤ c) :
    c * b * b < c * a * b ∧
      c * a * b ≤ c * a * a ∧
      compute_candidate a b c = c ^ 2 * a ^ 3 * b + c * b ^ 2 ∧
      compute_candidate a b c = (c * a * b) * (c * a * a) + c * b * b ∧
      (c * a * b) * b = (c * b * b) * a ∧
      (c * a * a) * b = (c * a * b) * a := by
  refine ⟨?_, ?_, by unfold compute_candidate; ring,
    by unfold compute_candidate; ring, by ring, by ring⟩
  · exact mul_lt_mul_of_pos_right (mul_lt_mul_of_pos_left hba (by omega)) (by omega)
  · exact mul_le_mul_left' (le_of_lt hba) (c * a)

theorem claim_C4_witness :
    1 ≤ 1 ∧ 1 < 2 ∧ 1 ≤ 1 ∧
      (1 * 1 * 1 < 1 * 2 * 1 ∧
        1 * 2 * 1 ≤ 1 * 2 * 2 ∧
        compute_candidate 2 1 1 = 1 ^ 2 * 2 ^ 3 * 1 + 1 * 1 ^ 2 ∧
        compute_candidate 2 1 1 = (1 * 2 * 1) * (1 * 2 * 2) + 1 * 1 * 1 ∧
        (1 * 2 * 1) * 1 = (1 * 1 * 1) * 2 ∧
        (1 * 2 * 2) * 1 = (1 * 2 * 1) * 2) :=
  ⟨by norm_num, by norm_num, by norm_num,
    claim_C4 2 1 1 (by norm_num) (by norm_num) (by norm_num)⟩

/-- C5: for every fixed pair `(a, b)` with `a ≥ 1` and `b ≥ 1`, the map
`c ↦ compute_candidate a b c` is strictly increasing in `c` on `c ≥ 1`. -/
theorem claim_C5 (a b c₁ c₂ : Nat) (ha : 1 ≤ a) (hb : 1 ≤ b) (hc : 1 ≤ c₁)
    (h : c₁ < c₂) : compute_candidate a b c₁ < compute_candidate a b c₂ := by
  unfold compute_candidate
  have h1 : c₁ * c₁ < c₂ * c₂ := by nlinarith
  have hab : 0 < a * a * a * b :=
    Nat.mul_pos (Nat.mul_pos (Nat.mul_pos ha ha) ha) hb
  calc c₁ * c₁ * a * a * a * b + c₁ * b * b
      = c₁ * c₁ * (a * a * a * b) + c₁ * (b * b) := by ring
    _ < c₂ * c₂ * (a * a * a * b) + c₂ * (b * b) :=
        Nat.add_lt_add_of_lt_of_le (mul_lt_mul_of_pos_right h1 hab)
          (mul_le_mul_right' (le_of_lt h) (b * b))
    _ = c₂ * c₂ * a * a * a * b + c₂ * b * b := by ring

theorem claim_C5_witness :
    1 ≤ 1 ∧ 1 ≤ 1 ∧ 1 ≤ 1 ∧ 1 < 2 ∧
      compute_candidate 1 1 1 < compute_candidate 1 1 2 :=
  ⟨by norm_num, by norm_num, by norm_num, by norm_num,
    claim_C5 1 1 1 2 (by norm_num) (by norm_num) (by norm_num) (by norm_num)⟩

/-- C10: for every triple `(a, b, c)` with `a ≥ 10^4`, `b ≥ 1`, `c ≥ 1`,
the candidate is already at least `10^12`; hence restricting the outer loop
to `a < 10'000` excludes no candidate below the bound. -/
theorem claim_C10 (a b c : Nat) (ha : 10000 ≤ a) (hb : 1 ≤ b) (hc : 1 ≤ c) :
    1000000000000 ≤ compute_candidate a b c := by
  unfold compute_candidate
  have h3 : 10000 * 10000 * 10000 ≤ a * a * a :=
    Nat.mul_le_mul (Nat.mul_le_mul ha ha) ha
  calc (1000000000000 : Nat) = 10000 * 10000 * 10000 := by norm_num
    _ ≤ a * a * a := h3
    _ ≤ a * a * a * b := Nat.le_mul_of_pos_right _ hb
    _ ≤ c * c * (a * a * a * b) := Nat.le_mul_of_pos_left _ (Nat.mul_pos hc hc)
    _ = c * c * a * a * a * b := by ring
    _ ≤ c * c * a * a * a * b + c * b * b := Nat.le_add_right _ _

theorem claim_C10_witness :
    10000 ≤ 10000 ∧ 1 ≤ 1 ∧ 1 ≤ 1 ∧
      1000000000000 ≤ compute_candidate 10000 1 1 :=
  ⟨by norm_num, by norm_num, by norm_num,
    claim_C10 10000 1 1 (by norm_num) (by norm_num) (by norm_num)⟩

/-! ### The small-bound regression scenario -/

/-- For `a ≥ 47` and `b ≥ 1`, already the first candidate (`c = 1`) reaches
the small bound `100000`, since `47³ = 103823`. -/
theorem candidate_large_a (a b : Nat) (ha : 47 ≤ a) (hb : 1 ≤ b) :
    100000 ≤ compute_candidate a b 1 := by
  unfold compute_candidate
  have h3 : 47 * 47 * 47 ≤ a * a * a :=
    Nat.mul_le_mul (Nat.mul_le_mul ha ha) ha
  calc (100000 : Nat) ≤ 47 * 47 * 47 := by norm_num
    _ ≤ a * a * a := h3
    _ = 1 * 1 * a * a * a := by ring
    _ ≤ 1 * 1 * a * a * a * b := Nat.le_mul_of_pos_right _ hb
    _ ≤ 1 * 1 * a * a * a * b + 1 * b * b := Nat.le_add_right _ _

/-! ### Behaviour of the inner loop -/

/-- For `a, b ≥ 1` the candidate dominates `c`, so the loop's break
condition is eventually reached. -/
theorem candidate_ge_c (a b c : Nat) (ha : 1 ≤ a) (hb : 1 ≤ b) :
    c ≤ compute_candidate a b c := by
  unfold compute_candidate
  have h1 : c ≤ c * c := by
    cases c with
    | zero => exact Nat.le_refl 0
    | succ k => exact Nat.le_mul_of_pos_left (k + 1) (Nat.succ_pos k)
  have hab : 0 < a * a * a * b :=
    Nat.mul_pos (Nat.mul_pos (Nat.mul_pos ha ha) ha) hb
  calc c ≤ c * c := h1
    _ ≤ c * c * (a * a * a * b) := Nat.le_mul_of_pos_right _ hab
    _ = c * c * a * a * a * b := by ring
    _ ≤ c * c * a * a * a * b + c * b * b := Nat.le_add_right _ _

/-- Once the break condition holds, the loop returns nothing (whatever the
fuel). -/
theorem cLoop_eq_nil {bound a b : Nat} (fuel c : Nat)
    (h : bound ≤ compute_candidate a b c) : cLoop bound a b fuel c = [] := by
  cases fuel with
  | zero => rfl
  | succ f => simp [cLoop, if_pos h]

/-- The result of the inner loop does not depend on the fuel, provided the
fuel reaches the break point; in particular the `fuel = bound` instance used
in `searchList` computes the loop's true result. -/
theorem cLoop_fuel_irrel {bound a b : Nat} (ha : 1 ≤ a) (hb : 1 ≤ b) :
    ∀ fuel₁ fuel₂ c, bound ≤ c + fuel₁ → bound ≤ c + fuel₂ →
      cLoop bound a b fuel₁ c = cLoop bound a b fuel₂ c := by
  intro fuel₁
  induction fuel₁ with
  | zero =>
    intro fuel₂ c h1 h2
    have hbreak : bound ≤ compute_candidate a b c :=
      le_trans (by omega) (candidate_ge_c a b c ha hb)
    rw [cLoop_eq_nil 0 c hbreak, cLoop_eq_nil fuel₂ c hbreak]
  | succ f ih =>
    intro fuel₂ c h1 h2
    cases fuel₂ with
    | zero =>
      have hbreak : bound ≤ compute_candidate a b c :=
        le_trans (by omega) (candidate_ge_c a b c ha hb)
      rw [cLoop_eq_nil (f + 1) c hbreak, cLoop_eq_nil 0 c hbreak]
    | succ f₂ =>
      simp only [cLoop]
      by_cases hbr : bound ≤ compute_candidate a b c
      · rw [if_pos hbr, if_pos hbr]
      · rw [if_neg hbr, if_neg hbr, ih f₂ (c + 1) (by omega) (by omega)]

/-- C6: for every `(a, b)` with `a ≥ 1` and `1 ≤ b < a`, the inner loop over
`c` terminates: some `c ≥ 1` makes the candidate reach `10^12` (the break
condition), and the fuelled model of the loop has already stabilised at the
fuel used by `searchList`, so the triple-nested enumeration is finite. -/
theorem claim_C6 (a b : Nat) (hb : 1 ≤ b) (hba : b < a) :
    (∃ c, 1 ≤ c ∧ 1000000000000 ≤ compute_candidate a b c) ∧
      ∀ extra, cLoop 1000000000000 a b 1000000000000 1 =
        cLoop 1000000000000 a b (1000000000000 + extra) 1 := by
  have ha : 1 ≤ a := by omega
  constructor
  · refine ⟨1000000, by norm_num, ?_⟩
    unfold compute_candidate
    have hstep : ∀ x : Nat, 1 ≤ x → ∀ y : Nat, y ≤ y * x := by
      intro x hx y
      calc y = y * 1 := (Nat.mul_one y).symm
        _ ≤ y * x := Nat.mul_le_mul (Nat.le_refl y) hx
    calc (1000000000000 : Nat) = 1000000 * 1000000 := by norm_num
      _ ≤ 1000000 * 1000000 * a := hstep a ha _
      _ ≤ 1000000 * 1000000 * a * a := hstep a ha _
      _ ≤ 1000000 * 1000000 * a * a * a := hstep a ha _
      _ ≤ 1000000 * 1000000 * a * a * a * b := hstep b hb _
      _ ≤ 1000000 * 1000000 * a * a * a * b + 1000000 * b * b :=
          Nat.le_add_right _ _
  · intro extra
    exact cLoop_fuel_irrel ha hb 1000000000000 (1000000000000 + extra) 1
      (by omega) (by omega)

theorem claim_C6_witness :
    1 ≤ 1 ∧ 1 < 2 ∧
      ((∃ c, 1 ≤ c ∧ 1000000000000 ≤ compute_candidate 2 1 c) ∧
        ∀ extra, cLoop 1000000000000 2 1 1000000000000 1 =
          cLoop 1000000000000 2 1 (1000000000000 + extra) 1) :=
  ⟨by norm_num, by norm_num, claim_C6 2 1 (by norm_num) (by norm_num)⟩

/-- With the bound lowered to `100000`, the part of the `a`-loop beyond
`a = 46` contributes nothing: every such inner loop breaks at `c = 1`. -/
theorem searchList_small_bound :
    searchList 100000 10000 = searchList 100000 47 := by
  unfold searchList
  have h1 : (10000 : Nat) - 1 = 9999 := by norm_num
  have h2 : (47 : Nat) - 1 = 46 := by norm_num
  have hsplit : List.range' 1 9999 = List.range' 1 46 ++ List.range' 47 9953 := by
    rw [List.range'_append_1]
  have hnil : (List.range' 47 9953).flatMap
      (fun a => (List.range' 1 (a - 1)).flatMap fun b => cLoop 100000 a b 100000 1)
      = [] := by
    rw [List.flatMap_eq_nil_iff]
    intro a hamem
    obtain ⟨i, hi, ha⟩ := List.mem_range'.mp hamem
    rw [List.flatMap_eq_nil_iff]
    intro b hbmem
    obtain ⟨j, hj, hb⟩ := List.mem_range'.mp hbmem
    exact cLoop_eq_nil 100000 1 (candidate_large_a a b (by omega) (by omega))
  rw [h1, h2, hsplit, List.flatMap_append, hnil, List.append_nil]

theorem sols_small_bound : sols 100000 10000 = sols 100000 47 := by
  unfold sols
  rw [searchList_small_bound]

/-- C1: running the search with `Bound = 100000` in place of `10^12` (same
generator loops over `a > b ≥ 1`, `c ≥ 1`, same candidate formula, same
classifier, same deduplicating set) produces a Solution Set whose elements
sum to exactly `124657`. -/
theorem claim_C1 : solsSum 100000 10000 = 124657 := by
  unfold solsSum
  rw [sols_small_bound]
  decide

/-! ### The Solution Set invariant -/

/-- Everything the inner loop emits is a candidate value for some `c` at or
beyond the starting point, lies below the bound, and passed the classifier. -/
theorem mem_cLoop {bound a b : Nat} :
    ∀ fuel c₀ n, n ∈ cLoop bound a b fuel c₀ →
      ∃ c, c₀ ≤ c ∧ n = compute_candidate a b c ∧ n < bound ∧
        is_perfect_square n = true := by
  intro fuel
  induction fuel with
  | zero =>
    intro c₀ n h
    simp [cLoop] at h
  | succ f ih =>
    intro c₀ n h
    simp only [cLoop] at h
    by_cases hbr : bound ≤ compute_candidate a b c₀
    · rw [if_pos hbr] at h
      simp at h
    · rw [if_neg hbr] at h
      by_cases hps : is_perfect_square (compute_candidate a b c₀) = true
      · rw [if_pos hps] at h
        rcases List.mem_cons.mp h with rfl | h'
        · exact ⟨c₀, Nat.le_refl c₀, rfl, by omega, hps⟩
        · obtain ⟨c, hc, h1, h2, h3⟩ := ih (c₀ + 1) n h'
          exact ⟨c, by omega, h1, h2, h3⟩
      · rw [if_neg hps] at h
        obtain ⟨c, hc, h1, h2, h3⟩ := ih (c₀ + 1) n h
        exact ⟨c, by omega, h1, h2, h3⟩

/-- The Solution Set invariant, for any bound and any `a`-limit: every member
is a candidate value for valid loop indices, is a perfect square, and lies
below the bound. -/
theorem mem_sols {bound amax n : Nat} (h : n ∈ sols bound amax) :
    (∃ a b c, 1 ≤ b ∧ b < a ∧ 1 ≤ c ∧ n = compute_candidate a b c) ∧
      (∃ m, m * m = n) ∧ n < bound := by
  unfold sols searchList at h
  rw [List.mem_dedup] at h
  obtain ⟨a, hamem, h⟩ := List.mem_flatMap.mp h
  obtain ⟨b, hbmem, h⟩ := List.mem_flatMap.mp h
  obtain ⟨i, hi, ha⟩ := List.mem_range'.mp hamem
  obtain ⟨j, hj, hb⟩ := List.mem_range'.mp hbmem
  obtain ⟨c, hc, h1, h2, h3⟩ := mem_cLoop bound 1 n h
  exact ⟨⟨a, b, c, by omega, by omega, hc, h1⟩,
    (is_perfect_square_iff_exists n).mp h3, h2⟩

/-- C7: every member `n` of the Solution Set built by `main` (bound `10^12`,
`a < 10^4`) satisfies: (a) `n = c²·a³·b + c·b²` for some `a > b ≥ 1`,
`c ≥ 1`; (b) `n` is a perfect square; (c) `n < 10^12`.  (The underlying
lemma `mem_sols` holds at every bound and `a`-limit, hence at every
intermediate stage of the enumeration as well.) -/
theorem claim_C7 (n : Nat) (h : n ∈ mainSols) :
    (∃ a b c, 1 ≤ b ∧ b < a ∧ 1 ≤ c ∧ n = compute_candidate a b c) ∧
      (∃ m, m * m = n) ∧ n < 1000000000000 := by
  unfold mainSols at h
  exact mem_sols h

/-- The value the loop is currently examining is emitted as soon as it is
below the bound and classified as a square. -/
theorem mem_cLoop_self {bound a b : Nat} (fuel c : Nat) (hfuel : 0 < fuel)
    (hlt : compute_candidate a b c < bound)
    (hps : is_perfect_square (compute_candidate a b c) = true) :
    compute_candidate a b c ∈ cLoop bound a b fuel c := by
  cases fuel with
  | zero => omega
  | succ f =>
    simp only [cLoop]
    rw [if_neg (by omega), if_pos hps]
    exact List.mem_cons_self _ _

/-- The known example `9 = 3²` (from `a = 2`, `b = 1`, `c = 1`) is in the
Solution Set of the full search. -/
theorem nine_mem_mainSols : 9 ∈ mainSols := by
  unfold mainSols sols searchList
  rw [List.mem_dedup]
  apply List.mem_flatMap.mpr
  refine ⟨2, ?_, ?_⟩
  · exact List.mem_range'.mpr ⟨1, by norm_num, by norm_num⟩
  · apply List.mem_flatMap.mpr
    refine ⟨1, ?_, ?_⟩
    · exact List.mem_range'.mpr ⟨0, by norm_num, by norm_num⟩
    · have h9 : compute_candidate 2 1 1 = 9 := by norm_num [compute_candidate]
      rw [← h9]
      exact mem_cLoop_self 1000000000000 1 (by norm_num)
        (by norm_num [compute_candidate]) (by decide)

theorem claim_C7_witness :
    9 ∈ mainSols ∧
      ((∃ a b c, 1 ≤ b ∧ b < a ∧ 1 ≤ c ∧ 9 = compute_candidate a b c) ∧
        (∃ m, m * m = 9) ∧ 9 < 1000000000000) :=
  ⟨nine_mem_mainSols, claim_C7 9 nine_mem_mainSols⟩

/-! ### Absence of 64-bit overflow -/

/-- C8: for every triple `(a, b, c)` actually reached by the enumeration
(`1 ≤ a < 10^4`, `1 ≤ b < a`, and `c` from `1` up to and including the
first `c` whose candidate meets the bound, i.e. `c = 1` or the previous
candidate was still below `10^12`), the exact value of
`c*c*a*a*a*b + c*b*b` is below `2^63` — hence so is every intermediate
product of the left-to-right evaluation — and the root check on any
classified `n < 10^12` also stays below `2^63`, so the wrapped 64-bit
arithmetic agrees with exact integer arithmetic. -/
theorem claim_C8 (a b c : Nat) (ha : 1 ≤ a) (ha' : a < 10000) (hb : 1 ≤ b)
    (hba : b < a) (hc : 1 ≤ c)
    (hreach : c = 1 ∨ compute_candidate a b (c - 1) < 1000000000000) :
    compute_candidate a b c < 2 ^ 63 ∧
      ∀ n : Nat, n < 1000000000000 →
        floor_sqrt n * floor_sqrt n < 2 ^ 63 := by
  constructor
  · by_cases hc1 : c = 1
    · subst hc1
      unfold compute_candidate
      have ha2 : a ≤ 10000 := by omega
      have hb' : b ≤ 10000 := by omega
      calc 1 * 1 * a * a * a * b + 1 * b * b
          = a * a * a * b + b * b := by ring
        _ ≤ 10000 * 10000 * 10000 * 10000 + 10000 * 10000 :=
            Nat.add_le_add
              (Nat.mul_le_mul (Nat.mul_le_mul (Nat.mul_le_mul ha2 ha2) ha2) hb')
              (Nat.mul_le_mul hb' hb')
        _ < 2 ^ 63 := by norm_num
    · have hprev : compute_candidate a b (c - 1) < 1000000000000 := by
        rcases hreach with h1 | h1
        · exact absurd h1 hc1
        · exact h1
      have hd : 1 ≤ c - 1 := by omega
      have hcd : c = (c - 1) + 1 := by omega
      unfold compute_candidate at hprev ⊢
      have hcc : c * c ≤ 4 * ((c - 1) * (c - 1)) := by nlinarith
      have hc2d : c ≤ 2 * (c - 1) := by omega
      have h1 : c * c * a * a * a * b ≤ 4 * ((c - 1) * (c - 1)) * a * a * a * b := by
        calc c * c * a * a * a * b = c * c * (a * a * a * b) := by ring
          _ ≤ 4 * ((c - 1) * (c - 1)) * (a * a * a * b) :=
              mul_le_mul_right' hcc (a * a * a * b)
          _ = 4 * ((c - 1) * (c - 1)) * a * a * a * b := by ring
      have h2 : c * b * b ≤ 2 * ((c - 1) * b * b) := by
        calc c * b * b = c * (b * b) := by ring
          _ ≤ 2 * (c - 1) * (b * b) := mul_le_mul_right' hc2d (b * b)
          _ = 2 * ((c - 1) * b * b) := by ring
      calc c * c * a * a * a * b + c * b * b
          ≤ 4 * ((c - 1) * (c - 1)) * a * a * a * b + 2 * ((c - 1) * b * b) :=
            Nat.add_le_add h1 h2
        _ ≤ 4 * ((c - 1) * (c - 1) * a * a * a * b + (c - 1) * b * b) := by
            have he : 4 * ((c - 1) * (c - 1)) * a * a * a * b
                = 4 * ((c - 1) * (c - 1) * a * a * a * b) := by ring
            rw [he, Nat.mul_add]
            exact Nat.add_le_add_left
              (Nat.mul_le_mul_right _ (by norm_num)) _
        _ < 4 * 1000000000000 := mul_lt_mul_of_pos_left hprev (by norm_num)
        _ < 2 ^ 63 := by norm_num
  · intro n hn
    have h1 : floor_sqrt n * floor_sqrt n ≤ n := by
      rw [floor_sqrt_eq]
      exact Nat.sqrt_le n
    exact lt_of_le_of_lt h1 (lt_of_lt_of_le hn (by norm_num))

theorem claim_C8_witness :
    1 ≤ 2 ∧ 2 < 10000 ∧ 1 ≤ 1 ∧ 1 < 2 ∧ 1 ≤ 1 ∧
      ((1 : Nat) = 1 ∨ compute_candidate 2 1 (1 - 1) < 1000000000000) ∧
      (compute_candidate 2 1 1 < 2 ^ 63 ∧
        ∀ n : Nat, n < 1000000000000 →
          floor_sqrt n * floor_sqrt n < 2 ^ 63) :=
  ⟨by norm_num, by norm_num, by norm_num, by norm_num, by norm_num, Or.inl rfl,
    claim_C8 2 1 1 (by norm_num) (by norm_num) (by norm_num) (by norm_num)
      (by norm_num) (Or.inl rfl)⟩

/-! ### Output format and exit status -/

/-- Every member of the Solution Set is the square of its integer root. -/
theorem sols_root_exact {bound amax n : Nat} (h : n ∈ sols bound amax) :
    floor_sqrt n * floor_sqrt n = n := by
  rw [floor_sqrt_eq]
  exact (is_perfect_square_iff_sqrt n).mp
    ((is_perfect_square_iff_exists n).mpr (mem_sols h).2.1)

/-- C9: the standard output of `main` is one line per distinct element of
the Solution Set (the solution list is duplicate-free) carrying that
element's integer square root — each printed root squares back exactly to
its element — followed by one blank line, followed by one line with the
decimal sum of all elements; the exit status is 0. -/
theorem claim_C9 :
    (∃ roots : List String, roots.length = mainSols.length ∧
        mainOutput = roots ++ [""] ++ [toString mainSols.sum]) ∧
      mainSols.Nodup ∧
      (mainSols.all fun n => floor_sqrt n * floor_sqrt n == n) = true ∧
      mainExitStatus = 0 := by
  refine ⟨⟨mainSols.map fun sol => toString (floor_sqrt sol), by simp, rfl⟩,
    ?_, ?_, rfl⟩
  · unfold mainSols sols
    exact List.nodup_dedup _
  · rw [List.all_eq_true]
    intro n hn
    have hn' : n ∈ sols 1000000000000 10000 := hn
    simp only [beq_iff_eq]
    exact sols_root_exact hn'
